import Mathlib

/-!
Shallow embedding of the two pipelines of the repository
`E---waste-generation-classification`:

* an image pipeline (script part of the notebook): preprocessing functions
  `adaptive_threshold` and `sharpen`, batch preprocessing `preprocess_batch`,
  a CNN model description `build_model`, and a manual epoch/step training
  loop run back to back for the two preprocessing variants;
* a tabular pipeline (notebook cells): label encoding of the `Category`
  column and an 80/20 train/test split with fixed random seed 42.

Images are modelled as height/width plus a pixel function; 8-bit pixel
values are integers (with explicit clipping where the code clips), the
normalized images fed to the network carry rational pixel values.
-/

namespace EWaste

/-- An 8-bit 3-channel image (`numpy` uint8 array of shape `(h, w, 3)`):
the pixel function gives the integer value of each channel at each
coordinate.  Channel order is BGR, as in OpenCV. -/
structure Img where
  h : Nat
  w : Nat
  px : Nat → Nat → Fin 3 → ℤ

/-- A normalized 3-channel image with rational pixel values, as produced by
the generator's `rescale=1./255` before `preprocess_batch` runs. -/
structure QImg where
  h : Nat
  w : Nat
  px : Nat → Nat → Fin 3 → ℚ

/-- OpenCV's default border handling `BORDER_REFLECT_101`: an out-of-range
index is reflected about the edge pixel (`-1 ↦ 1`, `n ↦ n-2`). -/
def refl101 (n : Nat) (i : ℤ) : ℤ :=
  if i < 0 then -i else if (n : ℤ) ≤ i then 2 * ((n : ℤ) - 1) - i else i

/-- Read a pixel at a possibly out-of-range integer coordinate, using
`BORDER_REFLECT_101` border handling. -/
def Img.pad (img : Img) (y x : ℤ) (c : Fin 3) : ℤ :=
  img.px (refl101 img.h y).toNat (refl101 img.w x).toNat c

/-- OpenCV `saturate_cast<uchar>`: clip an integer to the valid 8-bit
intensity range `[0, 255]`. -/
def clip8 (v : ℤ) : ℤ := max 0 (min 255 v)

/-- Function `sharpen(img)`: `cv2.filter2D(img, -1, kernel)` with the fixed 3×3
kernel `[[0,-1,0],[-1,5,-1],[0,-1,0]]`, applied per channel with the
default reflected border, the result saturated to 8 bits. -/
def sharpen (img : Img) : Img :=
  { img with
    px := fun y x c =>
      clip8 (5 * img.pad y x c
        - img.pad ((y : ℤ) - 1) x c - img.pad ((y : ℤ) + 1) x c
        - img.pad y ((x : ℤ) - 1) c - img.pad y ((x : ℤ) + 1) c) }

/-- Grayscale conversion `cv2.cvtColor(img, cv2.COLOR_BGR2GRAY)`: fixed-point grayscale
conversion `Y = 0.299 R + 0.587 G + 0.114 B` with 14-bit coefficients
(`1868 B + 9617 G + 4899 R + 8192) >> 14`). -/
def cvtGray (img : Img) : Nat → Nat → ℤ :=
  fun y x =>
    (1868 * img.px y x 0 + 9617 * img.px y x 1 + 4899 * img.px y x 2 + 8192) / 16384

/-- The `blockSize` argument of the `cv2.adaptiveThreshold` call. -/
def blockSize : Nat := 11

/-- The offset constant `C` subtracted from the local mean in the
`cv2.adaptiveThreshold` call. -/
def threshC : ℚ := 2

/-- The Gaussian-weighted local mean over the `blockSize × blockSize`
(11×11) neighbourhood used by `ADAPTIVE_THRESH_GAUSSIAN_C`.  The Gaussian
weights are a parameter `wt`; the neighbourhood is read with the reflected
border, mirroring OpenCV. -/
def localGaussMean (wt : Fin blockSize → Fin blockSize → ℚ)
    (g : Nat → Nat → ℤ) (h w : Nat) (y x : Nat) : ℚ :=
  ∑ i : Fin blockSize, ∑ j : Fin blockSize,
    wt i j *
      ((g (refl101 h ((y : ℤ) + (i : ℤ) - 5)).toNat
          (refl101 w ((x : ℤ) + (j : ℤ) - 5)).toNat : ℤ) : ℚ)

/-- Function `adaptive_threshold(img)`: convert to grayscale, apply
`cv2.adaptiveThreshold(gray, 255, ADAPTIVE_THRESH_GAUSSIAN_C,
THRESH_BINARY, 11, 2)` — pixel becomes `255` when the grayscale value
exceeds the Gaussian local mean minus 2, else `0` — then replicate the
single channel to 3 channels via `cv2.cvtColor(..., COLOR_GRAY2BGR)`.
The Gaussian weight table `wt` is a parameter. -/
def adaptive_threshold (wt : Fin blockSize → Fin blockSize → ℚ)
    (img : Img) : Img :=
  let gray := cvtGray img
  { h := img.h, w := img.w,
    px := fun y x _ =>
      if localGaussMean wt gray img.h img.w y x - threshC < (gray y x : ℚ)
      then 255 else 0 }

/-- C-style truncation toward zero of a rational, as performed by numpy's
`astype` on floats. -/
def truncQ (q : ℚ) : ℤ := if 0 ≤ q then ⌊q⌋ else ⌈q⌉

/-- Denormalization `(img * 255).astype(np.uint8)` at one pixel: scale by 255, truncate
toward zero, wrap modulo 256. -/
def toU8 (q : ℚ) : ℤ := truncQ (q * 255) % 256

/-- Denormalization `(batch_x[i] * 255).astype(np.uint8)`: denormalize a `[0,1]`-valued
image to an 8-bit image. -/
def denorm (im : QImg) : Img :=
  { h := im.h, w := im.w, px := fun y x c => toU8 (im.px y x c) }

/-- Renormalization `batch_x / 255.0` at one image: renormalize an 8-bit image to rational
pixel values. -/
def renorm (im : Img) : QImg :=
  { h := im.h, w := im.w, px := fun y x c => (im.px y x c : ℚ) / 255 }

/-- Function `preprocess_batch(batch_x, preprocess_func)`: each image of the batch
is denormalized to 8 bits, passed through the preprocessing function, and
the result divided by 255. -/
def preprocess_batch (preprocess_func : Img → Img) (batch : List QImg) :
    List QImg :=
  (batch.map (fun im => preprocess_func (denorm im))).map renorm

/-! ### CNN model description (`build_model`) and class count -/

/-- One Keras layer of the `Sequential` model, as a descriptor. -/
inductive Layer where
  | conv2D (filters k1 k2 : Nat) (activation : String)
  | maxPooling2D (p1 p2 : Nat)
  | flatten
  | dense (units : Nat) (activation : String)
  | dropout (rate : ℚ)
deriving DecidableEq

/-- Constant `IMG_SIZE = (128, 128)`. -/
def IMG_SIZE : Nat × Nat := (128, 128)

/-- Constant `BATCH_SIZE = 32`. -/
def BATCH_SIZE : Nat := 32

/-- Constant `EPOCHS = 40`. -/
def EPOCHS : Nat := 40

/-- Function `build_model(num_classes)`: the fixed `Sequential` layer stack —
two conv+pool stages (32 then 64 filters, 3×3, relu, 2×2 pooling),
flatten, dense 128 relu, dropout 0.5, and a final dense softmax layer
with `num_classes` units. -/
def build_model (num_classes : Nat) : List Layer :=
  [ .conv2D 32 3 3 "relu", .maxPooling2D 2 2,
    .conv2D 64 3 3 "relu", .maxPooling2D 2 2,
    .flatten,
    .dense 128 "relu",
    .dropout (1/2),
    .dense num_classes "softmax" ]

/-- The dataset root directory as seen by `os.walk`: its immediate
subdirectories (the class folders) and its top-level files. -/
structure DatasetDir where
  subdirs : List String
  files : List String

/-- Class count `num_classes = len(next(os.walk(DATASET_DIR))[1])`: the number of
immediate subdirectories of the dataset root. -/
def num_classes_of (d : DatasetDir) : Nat := d.subdirs.length

/-- The number of units of the last `dense` layer of a layer stack,
`0` when no layer is a `dense` layer. -/
def lastDenseUnits (layers : List Layer) : Nat :=
  match layers.reverse.findSome?
      (fun l => match l with
        | .dense u _ => some u
        | _ => none) with
  | some u => u
  | none => 0

/-! ### The manual training loop, run per preprocessing variant -/

/-- Step count `steps = samples // BATCH_SIZE`: floor division of the subset's sample
count by the batch size. -/
def stepsOf (samples batchSize : Nat) : Nat := samples / batchSize

/-- Mean `np.mean` over a list of values: `none` models the undefined (NaN)
mean of an empty list. -/
def npMean (l : List ℚ) : Option ℚ :=
  if l.length = 0 then none else some (l.sum / l.length)

/-- The four per-variant metric history lists
(`train_loss_*`, `train_acc_*`, `val_loss_*`, `val_acc_*`). -/
structure Hist where
  trainLoss : List (Option ℚ)
  trainAcc : List (Option ℚ)
  valLoss : List (Option ℚ)
  valAcc : List (Option ℚ)
deriving DecidableEq

/-- The empty metric histories created before the loops
(`train_loss_bin, val_loss_bin = [], []`, etc.). -/
def emptyHist : Hist := ⟨[], [], [], []⟩

/-- Everything one preprocessing variant owns: its model (weights of
abstract type `M`), the states of its training and validation generators
(abstract type `G`), and its metric histories. -/
structure VarState (M G : Type) where
  model : M
  trainGen : G
  testGen : G
  hist : Hist

/-- The functions and step counts driving one variant's loop: per-batch
gradient update (`train_on_batch`, which returns the updated weights and
the loss/accuracy pair), per-batch evaluation (`test_on_batch`), the
batch preprocessing step, the two generators' `next`, and the two step
counts.  Batches have abstract type `B`. -/
structure LoopFns (M G B : Type) where
  trainOnBatch : M → B → M × ℚ × ℚ
  testOnBatch : M → B → ℚ × ℚ
  preprocess : B → B
  nextTrain : G → B × G
  nextTest : G → B × G
  stepsTrain : Nat
  stepsVal : Nat

variable {M G B : Type}

/-- The inner training-step loop of one epoch: pull `n` batches from the
training generator, preprocess each, do one gradient update per batch, and
collect the per-batch losses and accuracies (in order). -/
def runTrainSteps (F : LoopFns M G B) :
    Nat → M → G → List ℚ × List ℚ × M × G
  | 0, m, g => ([], [], m, g)
  | n + 1, m, g =>
    let bg := F.nextTrain g
    let r := F.trainOnBatch m (F.preprocess bg.1)
    let rest := runTrainSteps F n r.1 bg.2
    (r.2.1 :: rest.1, r.2.2 :: rest.2.1, rest.2.2.1, rest.2.2.2)

/-- The inner validation-step loop of one epoch: pull `n` batches from the
validation generator, preprocess each, evaluate without gradient updates,
and collect the per-batch losses and accuracies. -/
def runValSteps (F : LoopFns M G B) :
    Nat → M → G → List ℚ × List ℚ × G
  | 0, _, g => ([], [], g)
  | n + 1, m, g =>
    let bg := F.nextTest g
    let r := F.testOnBatch m (F.preprocess bg.1)
    let rest := runValSteps F n m bg.2
    (r.1 :: rest.1, r.2 :: rest.2.1, rest.2.2)

/-- One epoch of the manual loop: `stepsTrain` gradient steps, append the
epoch's mean training loss/accuracy, then `stepsVal` evaluation steps,
append the epoch's mean validation loss/accuracy. -/
def runEpoch (F : LoopFns M G B) (s : VarState M G) : VarState M G :=
  let tr := runTrainSteps F F.stepsTrain s.model s.trainGen
  let va := runValSteps F F.stepsVal tr.2.2.1 s.testGen
  { model := tr.2.2.1,
    trainGen := tr.2.2.2,
    testGen := va.2.2,
    hist := { trainLoss := s.hist.trainLoss ++ [npMean tr.1],
              trainAcc := s.hist.trainAcc ++ [npMean tr.2.1],
              valLoss := s.hist.valLoss ++ [npMean va.1],
              valAcc := s.hist.valAcc ++ [npMean va.2.1] } }

/-- Epoch loop `for epoch in range(epochs): ...` — iterate `runEpoch`. -/
def runTraining (F : LoopFns M G B) : Nat → VarState M G → VarState M G
  | 0, s => s
  | n + 1, s => runTraining F n (runEpoch F s)

/-- The combined state of the two variants: the binary
(adaptive-threshold) variant's state and the sharpen variant's state. -/
def TwoVarState (M G : Type) := VarState M G × VarState M G

/-- The binary variant's training loop: runs `EPOCHS` epochs on the
binary variant's own model, generators and histories; the sharpen
variant's state is not touched. -/
def binaryPhase (F : LoopFns M G B) (s : TwoVarState M G) : TwoVarState M G :=
  (runTraining F EPOCHS s.1, s.2)

/-- The sharpen variant's training loop, run after the binary one: runs
`EPOCHS` epochs on the sharpen variant's own state only. -/
def sharpenPhase (F : LoopFns M G B) (s : TwoVarState M G) : TwoVarState M G :=
  (s.1, runTraining F EPOCHS s.2)

/-- The two training loops of the script, back to back: first the binary
variant's, then the sharpen variant's. -/
def fullTraining (Fbin Fsharp : LoopFns M G B) (s : TwoVarState M G) :
    TwoVarState M G :=
  sharpenPhase Fsharp (binaryPhase Fbin s)

/-! ### Tabular pipeline: label encoding and the train/test split -/

/-- Lexicographic strict order on lists of naturals. -/
def lexLtN : List Nat → List Nat → Bool
  | [], [] => false
  | [], _ :: _ => true
  | _ :: _, [] => false
  | a :: as, b :: bs =>
    if a < b then true else if b < a then false else lexLtN as bs

/-- Code-point lexicographic `≤` on strings. -/
def strLe (s t : String) : Bool :=
  !(lexLtN (t.data.map Char.toNat) (s.data.map Char.toNat))

/-- Insert a string into a (sorted) list of strings, keeping order. -/
def insertStr (s : String) : List String → List String
  | [] => [s]
  | t :: ts => if strLe s t then s :: t :: ts else t :: insertStr s ts

/-- Sort a list of strings (insertion sort). -/
def sortStrs : List String → List String
  | [] => []
  | s :: ss => insertStr s (sortStrs ss)

/-- Modelled from the spec: `sklearn.preprocessing.LabelEncoder` is library
code not contained in this repository; the spec says the `Category` column
is encoded "to contiguous non-negative integers".  The classes are the
distinct values of the column, sorted. -/
def classesOf (xs : List String) : List String := sortStrs xs.dedup

/-- Modelled from the spec: `label_encoder.fit_transform(data['Category'])`
— each value of the column is replaced by the index of its class among the
sorted distinct classes, yielding contiguous non-negative integer ids. -/
def labelEncode (xs : List String) : List Nat :=
  xs.map (fun s => (classesOf xs).indexOf s)

/-- One step of a linear congruential generator, standing in for the
library's pseudo-random number generator: fully determined by its state. -/
def lcgStep (s : Nat) : Nat := (1103515245 * s + 12345) % 2147483648

variable {α : Type}

/-- Remove the element at index `i` of a list, returning it together with
the remaining elements (in order); `none` when `i` is out of range. -/
def pickOut : List α → Nat → Option (α × List α)
  | [], _ => none
  | a :: as, 0 => some (a, as)
  | a :: as, i + 1 =>
    match pickOut as i with
    | none => none
    | some r => some (r.1, a :: r.2)

/-- The stream of `n` successive LCG draws from a seed. -/
def lcgStream (s : Nat) : Nat → List Nat
  | 0 => []
  | n + 1 => lcgStep s :: lcgStream (lcgStep s) n

/-- Fisher–Yates selection: for each pseudo-random draw, move the drawn
element (draw reduced modulo the remaining length) to the front of the
output and continue on the rest. -/
def applyPicks : List Nat → List α → List α
  | [], l => l
  | k :: ks, l =>
    match pickOut l (k % l.length) with
    | none => l
    | some r => r.1 :: applyPicks ks r.2

/-- A seed-determined permutation of a list: Fisher–Yates over the LCG
stream started at the seed, with one draw per element. -/
def fyShuffle (seed : Nat) (l : List α) : List α :=
  applyPicks (lcgStream seed l.length) l

/-- Modelled from the spec: `sklearn.model_selection.train_test_split` is
library code not contained in this repository; the spec describes it as
"split rows 80/20 (fixed random seed 42)" that "produces the same
partition on repeated runs over the same dataset" given the fixed seed.
The model: when `random_state` is given it seeds the generator, otherwise
the ambient entropy of the run (`osEntropy`) does; the rows are permuted
by the seeded generator; the test set is the first `⌈test_size·n⌉` rows of
the permutation and the training set the rest.  Returns
`(train, test)`. -/
def train_test_split (osEntropy : Nat) (rows : List α)
    (test_size : ℚ) (random_state : Option Nat) : List α × List α :=
  let seed := random_state.getD osEntropy
  let nTest := (⌈test_size * rows.length⌉).toNat
  let p := fyShuffle seed rows
  (p.drop nTest, p.take nTest)

/-! ### Theorems -/

/-- Clipping `clip8` always lands in the valid 8-bit range. -/
theorem clip8_bounds (v : ℤ) : 0 ≤ clip8 v ∧ clip8 v ≤ 255 := by
  simp only [clip8]
  omega

/-- C1: applying the sharpen transform (3×3 kernel with center 5,
four-neighbor weight −1, corners 0, clipped to the valid 8-bit range) to a
uniform, flat-color image (all pixels equal, per channel, to a valid 8-bit
value) returns an image equal to the input. -/
theorem sharpen_uniform_eq_self (img : Img) (v : Fin 3 → ℤ)
    (hrange : ∀ c, 0 ≤ v c ∧ v c ≤ 255)
    (huni : ∀ y x c, img.px y x c = v c) :
    (sharpen img).h = img.h ∧ (sharpen img).w = img.w ∧
      ∀ y x c, (sharpen img).px y x c = img.px y x c := by
  refine ⟨rfl, rfl, fun y x c => ?_⟩
  have hpad : ∀ (yy xx : ℤ), img.pad yy xx c = v c := fun yy xx => huni _ _ _
  show clip8 (5 * img.pad y x c
      - img.pad ((y : ℤ) - 1) x c - img.pad ((y : ℤ) + 1) x c
      - img.pad y ((x : ℤ) - 1) c - img.pad y ((x : ℤ) + 1) c) = img.px y x c
  rw [hpad, hpad, hpad, hpad, hpad, huni]
  have h5 : 5 * v c - v c - v c - v c - v c = v c := by ring
  rw [h5]
  rcases hrange c with ⟨h0, h255⟩
  simp only [clip8]
  omega

/-- A concrete uniform 4×4 image with all channels at intensity 7. -/
def uniImg : Img := ⟨4, 4, fun _ _ _ => 7⟩

/-- C1 witness: the sharpen transform is the identity on the concrete
uniform image `uniImg`. -/
theorem sharpen_uniform_eq_self_witness :
    (sharpen uniImg).h = uniImg.h ∧ (sharpen uniImg).w = uniImg.w ∧
      ∀ y x c, (sharpen uniImg).px y x c = uniImg.px y x c :=
  sharpen_uniform_eq_self uniImg (fun _ => 7)
    (by intro c; exact ⟨by norm_num, by norm_num⟩) (fun _ _ _ => rfl)

/-- C2: for every 8-bit 3-channel image and every Gaussian weight table,
the adaptive-threshold transform preserves the dimensions, every output
pixel value is 0 or 255 (binary), and the three output channels are
identical — the binarization is computed from the single-channel grayscale
intensity with a local neighborhood of size 11 and offset constant 2 (see
`adaptive_threshold`, `blockSize`, `threshC`). -/
theorem adaptive_threshold_binary_replicated
    (wt : Fin blockSize → Fin blockSize → ℚ) (img : Img) :
    (adaptive_threshold wt img).h = img.h ∧
    (adaptive_threshold wt img).w = img.w ∧
    ∀ y x, (∀ c, (adaptive_threshold wt img).px y x c = 0 ∨
                 (adaptive_threshold wt img).px y x c = 255) ∧
           ∀ c c', (adaptive_threshold wt img).px y x c =
                   (adaptive_threshold wt img).px y x c' := by
  refine ⟨rfl, rfl, fun y x => ⟨fun c => ?_, fun c c' => rfl⟩⟩
  simp only [adaptive_threshold]
  split
  · exact Or.inr rfl
  · exact Or.inl rfl

/-- C4: for every input batch and every shape-preserving preprocessing
function with 8-bit output, `preprocess_batch` returns a batch of the same
length in which every image has the same dimensions as the corresponding
input image and every pixel value lies in `[0, 1]`. -/
theorem preprocess_batch_dims_unit_range (f : Img → Img)
    (hdim : ∀ im, (f im).h = im.h ∧ (f im).w = im.w)
    (hrange : ∀ im y x c, 0 ≤ (f im).px y x c ∧ (f im).px y x c ≤ 255)
    (batch : List QImg) :
    (preprocess_batch f batch).length = batch.length ∧
    ∀ i : Fin batch.length,
      ((preprocess_batch f batch).get
          (Fin.cast (by simp [preprocess_batch]) i)).h = (batch.get i).h ∧
      ((preprocess_batch f batch).get
          (Fin.cast (by simp [preprocess_batch]) i)).w = (batch.get i).w ∧
      ∀ y x c,
        0 ≤ ((preprocess_batch f batch).get
              (Fin.cast (by simp [preprocess_batch]) i)).px y x c ∧
        ((preprocess_batch f batch).get
              (Fin.cast (by simp [preprocess_batch]) i)).px y x c ≤ 1 := by
  have hget : ∀ i : Fin batch.length,
      (preprocess_batch f batch).get
          (Fin.cast (by simp [preprocess_batch]) i) =
        renorm (f (denorm (batch.get i))) := by
    intro i
    simp [preprocess_batch, List.get_eq_getElem]
  refine ⟨by simp [preprocess_batch], fun i => ?_⟩
  rw [hget i]
  refine ⟨?_, ?_, fun y x c => ?_⟩
  · exact (hdim (denorm (batch.get i))).1
  · exact (hdim (denorm (batch.get i))).2
  · rcases hrange (denorm (batch.get i)) y x c with ⟨h0, h255⟩
    constructor
    · exact div_nonneg (by exact_mod_cast h0) (by norm_num)
    · show ((f (denorm (batch.get i))).px y x c : ℚ) / 255 ≤ 1
      rw [div_le_one (by norm_num)]
      exact_mod_cast h255

/-- A concrete one-image batch (1×1 image, all channels 1/2). -/
def batchW : List QImg := [⟨1, 1, fun _ _ _ => 1/2⟩]

/-- C4 witness: `preprocess_batch` with the sharpen transform on the
concrete batch `batchW` preserves lengths and dimensions and lands in
`[0, 1]`. -/
theorem preprocess_batch_dims_unit_range_witness :
    (preprocess_batch sharpen batchW).length = batchW.length ∧
    ∀ i : Fin batchW.length,
      ((preprocess_batch sharpen batchW).get
          (Fin.cast (by simp [preprocess_batch]) i)).h = (batchW.get i).h ∧
      ((preprocess_batch sharpen batchW).get
          (Fin.cast (by simp [preprocess_batch]) i)).w = (batchW.get i).w ∧
      ∀ y x c,
        0 ≤ ((preprocess_batch sharpen batchW).get
              (Fin.cast (by simp [preprocess_batch]) i)).px y x c ∧
        ((preprocess_batch sharpen batchW).get
              (Fin.cast (by simp [preprocess_batch]) i)).px y x c ≤ 1 :=
  preprocess_batch_dims_unit_range sharpen (fun _ => ⟨rfl, rfl⟩)
    (fun _ _ _ _ => clip8_bounds _) batchW

/-- C10: the denormalize–renormalize round trip of `preprocess_batch` is
not the identity on `[0, 1]`: with the identity as preprocessing function,
some pixel value `x ∈ [0, 1]` comes back different (uint8 truncation of
`x·255` followed by division by 255 is lossy). -/
theorem preprocess_batch_roundtrip_lossy :
    ∃ x : ℚ, 0 ≤ x ∧ x ≤ 1 ∧
      (preprocess_batch id [⟨1, 1, fun _ _ _ => x⟩]).map
          (fun im => im.px 0 0 0) ≠ [x] := by
  refine ⟨1/510, by norm_num, by norm_num, ?_⟩
  have h1 : truncQ ((1/510 : ℚ) * 255) = 0 := by
    rw [truncQ, if_pos (by norm_num),
      show ((1/510 : ℚ) * 255) = 1/2 by norm_num,
      Int.floor_eq_zero_iff, Set.mem_Ico]
    constructor <;> norm_num
  have h2 : (preprocess_batch id [⟨1, 1, fun _ _ _ => (1/510 : ℚ)⟩]).map
      (fun im => im.px 0 0 0) =
      [((truncQ ((1/510 : ℚ) * 255) % 256 : ℤ) : ℚ) / 255] := rfl
  rw [h2, h1]
  norm_num

/-- C3: step counts are floor divisions of the sample count by the batch
size 32 (`steps_test_bin = test_gen_bin.samples // BATCH_SIZE`); in
particular a validation subset of 20 samples gives `floor(20/32) = 0`
validation steps, in which case an epoch's validation loss/accuracy means
are taken over the empty list — an undefined mean, modelled as `none` —
yet are still appended to the history lists. -/
theorem steps_floor_and_empty_val_mean :
    (∀ samples : Nat,
      stepsOf samples BATCH_SIZE * BATCH_SIZE ≤ samples ∧
      samples < (stepsOf samples BATCH_SIZE + 1) * BATCH_SIZE) ∧
    stepsOf 80 BATCH_SIZE = 2 ∧
    stepsOf 20 BATCH_SIZE = 0 ∧
    npMean ([] : List ℚ) = none ∧
    ∀ (M G B : Type) (F : LoopFns M G B),
      F.stepsVal = stepsOf 20 BATCH_SIZE →
      ∀ s : VarState M G,
        (runEpoch F s).hist.valLoss = s.hist.valLoss ++ [none] ∧
        (runEpoch F s).hist.valAcc = s.hist.valAcc ++ [none] := by
  refine ⟨fun samples => ?_, by decide, by decide, rfl, ?_⟩
  · simp only [stepsOf, BATCH_SIZE]
    omega
  · intro M G B F hF s
    have h0 : F.stepsVal = 0 := hF
    constructor <;> simp [runEpoch, h0, runValSteps, npMean]

/-- A trivial concrete instantiation of the loop's collaborators over
`Unit`, with 2 training steps and `floor(20/32) = 0` validation steps. -/
def trivFns : LoopFns Unit Unit Unit :=
  { trainOnBatch := fun _ _ => ((), 1, 1),
    testOnBatch := fun _ _ => (1, 1),
    preprocess := fun b => b,
    nextTrain := fun g => ((), g),
    nextTest := fun g => ((), g),
    stepsTrain := stepsOf 80 BATCH_SIZE,
    stepsVal := stepsOf 20 BATCH_SIZE }

/-- A concrete starting state for the trivial loop instantiation. -/
def trivState : VarState Unit Unit := ⟨(), (), (), emptyHist⟩

/-- C3 witness: with the concrete loop collaborators `trivFns` (validation
step count `floor(20/32)`), one epoch appends the undefined mean `none` to
both validation history lists of `trivState`. -/
theorem steps_floor_and_empty_val_mean_witness :
    (runEpoch trivFns trivState).hist.valLoss =
        trivState.hist.valLoss ++ [none] ∧
    (runEpoch trivFns trivState).hist.valAcc =
        trivState.hist.valAcc ++ [none] :=
  steps_floor_and_empty_val_mean.2.2.2.2 Unit Unit Unit trivFns rfl trivState

/-- One epoch appends exactly one entry to each of the four history
lists. -/
theorem runEpoch_hist_lengths {M G B : Type} (F : LoopFns M G B)
    (s : VarState M G) :
    (runEpoch F s).hist.trainLoss.length = s.hist.trainLoss.length + 1 ∧
    (runEpoch F s).hist.trainAcc.length = s.hist.trainAcc.length + 1 ∧
    (runEpoch F s).hist.valLoss.length = s.hist.valLoss.length + 1 ∧
    (runEpoch F s).hist.valAcc.length = s.hist.valAcc.length + 1 := by
  simp [runEpoch]

/-- Running `n` epochs grows each history list by exactly `n`. -/
theorem runTraining_hist_lengths {M G B : Type} (F : LoopFns M G B) :
    ∀ (n : Nat) (s : VarState M G),
    (runTraining F n s).hist.trainLoss.length =
        s.hist.trainLoss.length + n ∧
    (runTraining F n s).hist.trainAcc.length =
        s.hist.trainAcc.length + n ∧
    (runTraining F n s).hist.valLoss.length = s.hist.valLoss.length + n ∧
    (runTraining F n s).hist.valAcc.length = s.hist.valAcc.length + n
  | 0, s => by simp [runTraining]
  | n + 1, s => by
    have ih := runTraining_hist_lengths F n (runEpoch F s)
    have he := runEpoch_hist_lengths F s
    simp only [runTraining]
    refine ⟨?_, ?_, ?_, ?_⟩ <;> omega

/-- C6: after a full training run of `EPOCHS = 40` epochs for a variant
starting from the empty histories, each of the variant's four metric
history lists (train loss, train accuracy, validation loss, validation
accuracy) contains exactly 40 entries. -/
theorem hist_lengths_after_full_run (M G B : Type) (F : LoopFns M G B)
    (m : M) (gTrain gTest : G) :
    EPOCHS = 40 ∧
    (runTraining F EPOCHS ⟨m, gTrain, gTest, emptyHist⟩).hist.trainLoss.length
        = EPOCHS ∧
    (runTraining F EPOCHS ⟨m, gTrain, gTest, emptyHist⟩).hist.trainAcc.length
        = EPOCHS ∧
    (runTraining F EPOCHS ⟨m, gTrain, gTest, emptyHist⟩).hist.valLoss.length
        = EPOCHS ∧
    (runTraining F EPOCHS ⟨m, gTrain, gTest, emptyHist⟩).hist.valAcc.length
        = EPOCHS := by
  have h := runTraining_hist_lengths F EPOCHS ⟨m, gTrain, gTest, emptyHist⟩
  simp only [emptyHist] at h
  refine ⟨rfl, ?_, ?_, ?_, ?_⟩ <;> simp [h.1, h.2.1, h.2.2.1, h.2.2.2, emptyHist]

/-- C9: the two variant trainings are strictly sequential with no
cross-variant mutation — the entire binary-variant training loop leaves
the sharpen variant's model, generators and metric history lists
unchanged, the sharpen-variant loop leaves the binary variant's state
unchanged, and the back-to-back full run gives the binary variant exactly
the state its own loop produced. -/
theorem variant_phases_frame (M G B : Type) (Fbin Fsharp : LoopFns M G B)
    (s : TwoVarState M G) :
    (binaryPhase Fbin s).2 = s.2 ∧
    (sharpenPhase Fsharp s).1 = s.1 ∧
    (fullTraining Fbin Fsharp s).1 = (binaryPhase Fbin s).1 ∧
    (fullTraining Fbin Fsharp s).2 =
        (sharpenPhase Fsharp (binaryPhase Fbin s)).2 :=
  ⟨rfl, rfl, rfl, rfl⟩

/-- C7: the number of output classes equals the number of immediate
subdirectories of the dataset root (`num_classes =
len(next(os.walk(DATASET_DIR))[1])`), and the final layer of
`build_model(num_classes)` is a dense softmax layer with exactly that many
units. -/
theorem num_classes_and_final_dense (d : DatasetDir) :
    num_classes_of d = d.subdirs.length ∧
    (build_model (num_classes_of d)).getLast? =
        some (.dense d.subdirs.length "softmax") ∧
    lastDenseUnits (build_model (num_classes_of d)) = d.subdirs.length :=
  ⟨rfl, rfl, rfl⟩

/-- C5: with the fixed random seed 42 and test fraction 0.2, two runs of
the tabular train/test split over the same rows produce identical
partitions, whatever ambient entropy the two runs see: the split is
deterministic across runs. -/
theorem split_deterministic_seed42 (α : Type) (env1 env2 : Nat)
    (rows : List α) :
    train_test_split env1 rows (1/5) (some 42) =
    train_test_split env2 rows (1/5) (some 42) := rfl

/-- Membership in an insertion-sort insert. -/
theorem mem_insertStr {a s : String} :
    ∀ {l : List String}, a ∈ insertStr s l ↔ a = s ∨ a ∈ l
  | [] => by simp [insertStr]
  | t :: ts => by
    simp only [insertStr]
    split
    · simp
    · simp only [List.mem_cons, mem_insertStr]
      tauto

/-- Sorting strings preserves membership. -/
theorem mem_sortStrs {a : String} :
    ∀ {l : List String}, a ∈ sortStrs l ↔ a ∈ l
  | [] => Iff.rfl
  | t :: ts => by
    simp only [sortStrs, mem_insertStr, List.mem_cons, mem_sortStrs]

/-- Inserting a fresh element keeps a sorted list duplicate-free. -/
theorem nodup_insertStr {s : String} :
    ∀ {l : List String}, l.Nodup → s ∉ l → (insertStr s l).Nodup
  | [], _, _ => List.nodup_singleton s
  | t :: ts, h, hs => by
    simp only [insertStr]
    split
    · exact List.Nodup.cons hs h
    · refine List.Nodup.cons ?_ (nodup_insertStr (List.Nodup.of_cons h) ?_)
      · rw [mem_insertStr]
        rintro (rfl | ht)
        · exact hs (List.mem_cons_self _ _)
        · exact (List.nodup_cons.mp h).1 ht
      · intro hmem
        exact hs (List.mem_cons_of_mem _ hmem)

/-- Sorting a duplicate-free list of strings keeps it duplicate-free. -/
theorem nodup_sortStrs :
    ∀ {l : List String}, l.Nodup → (sortStrs l).Nodup
  | [], _ => List.nodup_nil
  | t :: ts, h => by
    simp only [sortStrs]
    refine nodup_insertStr (nodup_sortStrs (List.Nodup.of_cons h)) ?_
    rw [mem_sortStrs]
    exact (List.nodup_cons.mp h).1

/-- The classes of a column are exactly its values. -/
theorem mem_classesOf {a : String} {xs : List String} :
    a ∈ classesOf xs ↔ a ∈ xs := by
  rw [classesOf, mem_sortStrs, List.mem_dedup]

/-- The class list is duplicate-free. -/
theorem nodup_classesOf (xs : List String) : (classesOf xs).Nodup :=
  nodup_sortStrs (List.nodup_dedup xs)

/-- Lemma: `pickOut` at an in-range index succeeds and shortens the list by
one. -/
theorem pickOut_length :
    ∀ (l : List α) (i : Nat), i < l.length →
      ∃ a rest, pickOut l i = some (a, rest) ∧ rest.length + 1 = l.length
  | [], i, h => absurd h (by simp)
  | a :: as, 0, _ => ⟨a, as, rfl, rfl⟩
  | a :: as, i + 1, h => by
    obtain ⟨b, rest, hp, hl⟩ := pickOut_length as i (by simpa using h)
    exact ⟨b, a :: rest, by simp [pickOut, hp], by simp [← hl]⟩

/-- The Fisher–Yates selection loop preserves the length of the list. -/
theorem applyPicks_length :
    ∀ (ks : List Nat) (l : List α), (applyPicks ks l).length = l.length
  | [], _ => rfl
  | k :: ks, [] => rfl
  | k :: ks, a :: as => by
    have hlt : k % (a :: as).length < (a :: as).length :=
      Nat.mod_lt _ (by simp)
    obtain ⟨b, rest, hp, hl⟩ := pickOut_length (a :: as) _ hlt
    have hrec := applyPicks_length ks rest
    rw [applyPicks, hp]
    simp only [List.length_cons] at hl ⊢
    rw [hrec]
    omega

/-- The seed-determined shuffle preserves the length of the list. -/
theorem fyShuffle_length (seed : Nat) (l : List α) :
    (fyShuffle seed l).length = l.length :=
  applyPicks_length (lcgStream seed l.length) l

/-- C8: for a 100-row dataset whose `Category` column has exactly 3
distinct strings, label encoding produces integer ids forming exactly the
set `{0, 1, 2}`, and the subsequent 80/20 split (seed 42) yields a
training set of exactly 80 rows and a test set of exactly 20 rows. -/
theorem encode_and_split_100 (cats : List String) (rows : List α)
    (env : Nat) (hcats : cats.length = 100)
    (hdistinct : (classesOf cats).length = 3)
    (hrows : rows.length = 100) :
    (labelEncode cats).toFinset = ({0, 1, 2} : Finset ℕ) ∧
    (train_test_split env rows (1/5) (some 42)).1.length = 80 ∧
    (train_test_split env rows (1/5) (some 42)).2.length = 20 := by
  refine ⟨?_, ?_, ?_⟩
  · ext n
    simp only [List.mem_toFinset, Finset.mem_insert, Finset.mem_singleton]
    constructor
    · intro hn
      obtain ⟨s, hs, rfl⟩ := List.mem_map.mp hn
      have hmem : s ∈ classesOf cats := mem_classesOf.mpr hs
      have := List.indexOf_lt_length.mpr hmem
      omega
    · intro hn
      have hn3 : n < (classesOf cats).length := by omega
      set s := (classesOf cats).get ⟨n, hn3⟩ with hsdef
      have hmem : s ∈ classesOf cats := List.get_mem _ _ hn3
      have hxs : s ∈ cats := mem_classesOf.mp hmem
      have hidx : (classesOf cats).indexOf s = n := by
        rw [hsdef]
        exact List.get_indexOf (nodup_classesOf cats) _
      rw [labelEncode]
      exact List.mem_map.mpr ⟨s, hxs, hidx⟩
  · have hn : (fyShuffle 42 rows).length = 100 := by
      rw [fyShuffle_length, hrows]
    have hceil : (⌈(1/5 : ℚ) * (rows.length : ℕ)⌉).toNat = 20 := by
      rw [hrows]
      norm_num
      decide
    simp only [train_test_split, Option.getD_some, List.length_drop, hceil,
      hn]
  · have hn : (fyShuffle 42 rows).length = 100 := by
      rw [fyShuffle_length, hrows]
    have hceil : (⌈(1/5 : ℚ) * (rows.length : ℕ)⌉).toNat = 20 := by
      rw [hrows]
      norm_num
      decide
    simp only [train_test_split, Option.getD_some, List.length_take, hceil,
      hn]
    omega

/-- A concrete 100-entry `Category` column with exactly 3 distinct
strings. -/
def catsW : List String :=
  List.replicate 34 "a" ++ List.replicate 33 "b" ++ List.replicate 33 "c"

/-- A concrete 100-row dataset. -/
def rowsW : List Nat := List.range 100

set_option maxRecDepth 100000 in
/-- C8 witness: on the concrete 100-row dataset `catsW`/`rowsW`, label
encoding gives exactly the id set `{0, 1, 2}` and the 80/20 split yields
80 training rows and 20 test rows. -/
theorem encode_and_split_100_witness :
    (labelEncode catsW).toFinset = ({0, 1, 2} : Finset ℕ) ∧
    (train_test_split 0 rowsW (1/5) (some 42)).1.length = 80 ∧
    (train_test_split 0 rowsW (1/5) (some 42)).2.length = 20 :=
  encode_and_split_100 catsW rowsW 0 (by simp [catsW]) (by decide)
    (by simp [rowsW])

end EWaste
